import Mathlib

/-!
Verification of the `ccg` repository: a Combinatory Categorial Grammar
parser (category algebra, directed combinators, CYK chart engine,
derivation extraction and semantic composition).

The combinators, the chart rules, the chart-filling loop, derivation
extraction and `compute_semantics` are embedded from the sources
(`ccg/combinator/*.py`, `ccg/chart.py`, `ccg/lexicon.py`).  The category
algebra (`ccg/api.py`) and the term-composition helpers (`ccg/logic.py`)
are imported by those sources but are not part of the source tree; they
are modelled from the specification, as marked on each such definition.
-/

namespace CCG

/-- Slash orientation of a functional category: `/` (forward) or `\` (backward). -/
inductive Slash where
  | fwd
  | bwd
deriving DecidableEq, Repr

/-- Modelled from the spec: `ccg/api.py` (class `Direction`) is not in the
source tree.  A direction is a slash orientation plus per-occurrence
`composable` and `crossable` flags; negation flips the slash and keeps the
flags. -/
structure Dir where
  slash : Slash
  composable : Bool
  crossable : Bool
deriving DecidableEq, Repr

def Dir.is_forward (d : Dir) : Bool := d.slash == .fwd

def Dir.is_backward (d : Dir) : Bool := d.slash == .bwd

def Dir.can_compose (d : Dir) : Bool := d.composable

def Dir.can_cross (d : Dir) : Bool := d.crossable

/-- Negation (`-direction` in the source) flips the slash, preserving flags. -/
def Dir.neg (d : Dir) : Dir :=
  { d with slash := match d.slash with | .fwd => .bwd | .bwd => .fwd }

/-- Modelled from the spec: `ccg/api.py` is not in the source tree.  The
category sum type: `PrimitiveCategory` (name plus ordered restriction
tags), `FunctionalCategory` (result, argument, direction) and `CCGVar`
(identified by a numeric id). -/
inductive Categ where
  | prim (name : String) (restrs : List String)
  | cvar (id : Nat)
  | func (result : Categ) (argument : Categ) (direction : Dir)
deriving DecidableEq, Repr

def Categ.is_primitive : Categ → Bool
  | .prim _ _ => true
  | _ => false

def Categ.is_function : Categ → Bool
  | .func _ _ _ => true
  | _ => false

def Categ.is_var : Categ → Bool
  | .cvar _ => true
  | _ => false

/-- `res()` is defined only on `FunctionalCategory` (spec §4.1: calling it on
another variant is a programming error).  The embedding totalises it by
returning the category itself on the other variants; every use below is
guarded so the junk value is inert. -/
def Categ.res : Categ → Categ
  | .func r _ _ => r
  | c => c

/-- `arg()`, totalised like `Categ.res`. -/
def Categ.arg : Categ → Categ
  | .func _ a _ => a
  | c => c

/-- `dir()`, totalised like `Categ.res`; the junk direction has both flags
false so that a non-functional operand can never satisfy a
`can_compose`/`can_cross` guard that the source would have crashed on. -/
def Categ.dir : Categ → Dir
  | .func _ _ d => d
  | _ => ⟨.fwd, false, false⟩

/-- A substitution maps variable ids to categories. -/
abbrev Subst := List (Nat × Categ)

/-- Modelled from the spec (§4.1): `substitute` rewrites every bound
variable; non-matching variables and primitives pass through unchanged. -/
def Categ.substitute : Categ → Subst → Categ
  | .prim n rs, _ => .prim n rs
  | .cvar i, s =>
    match s.lookup i with
    | some c => c
    | none => .cvar i
  | .func r a d, s => .func (r.substitute s) (a.substitute s) d

/-- Composition of two substitutions: later bindings must agree with
earlier ones or unification fails (spec §4.1). -/
def mergeSubst : Subst → Subst → Option Subst
  | s₁, [] => some s₁
  | s₁, (i, c) :: rest =>
    match s₁.lookup i with
    | some c' => if c' = c then mergeSubst s₁ rest else none
    | none => mergeSubst (s₁ ++ [(i, c)]) rest

/-- Modelled from the spec (§4.1): `unify`/`can_unify`.  Primitive vs
primitive succeeds iff the names are equal (restriction tags are ignored
for unification); a variable unifies with anything, binding the variable;
functional vs functional succeeds iff the slash orientations match and the
arguments and results both unify, composing the two substitutions. -/
def Categ.can_unify : Categ → Categ → Option Subst
  | .prim n _, .prim m _ => if n = m then some [] else none
  | .cvar i, c => some [(i, c)]
  | c, .cvar i => some [(i, c)]
  | .func r₁ a₁ d₁, .func r₂ a₂ d₂ =>
    if d₁.slash = d₂.slash then
      match a₁.can_unify a₂ with
      | none => none
      | some s₁ =>
        match r₁.can_unify r₂ with
        | none => none
        | some s₂ => mergeSubst s₁ s₂
    else none
  | _, _ => none

/-! ## The four undirected combinators (`ccg/combinator/`) -/

namespace FunctionApplication

/-- `FunctionApplication.can_combine` (ccg/combinator/application.py). -/
def can_combine (function argument : Categ) : Bool :=
  if !function.is_function then false
  else !(function.arg.can_unify argument).isNone

/-- `FunctionApplication.combine` (ccg/combinator/application.py). -/
def combine (function argument : Categ) : List Categ :=
  if !function.is_function then []
  else
    match function.arg.can_unify argument with
    | none => []
    | some subs => [function.res.substitute subs]

end FunctionApplication

namespace Composition

/-- `Composition.can_combine` (ccg/combinator/composition.py). -/
def can_combine (function argument : Categ) : Bool :=
  if !(function.is_function && argument.is_function) then false
  else if function.dir.can_compose && argument.dir.can_compose then
    !(function.arg.can_unify argument.res).isNone
  else false

/-- `Composition.combine` (ccg/combinator/composition.py). -/
def combine (function argument : Categ) : List Categ :=
  if !(function.is_function && argument.is_function) then []
  else if function.dir.can_compose && argument.dir.can_compose then
    match function.arg.can_unify argument.res with
    | some subs =>
      [.func (function.res.substitute subs) (argument.arg.substitute subs) argument.dir]
    | none => []
  else []

end Composition

namespace Substitution

/-- `Substitution.can_combine` (ccg/combinator/substitution.py).  The
accessors `res`/`arg`/`dir` are defined only on `Functional` (spec §4.1:
calling them on another variant is a programming error), so the method can
raise: on a variable `function` (at `function.res()`), on a variable
`argument` (at `argument.dir()`, reached only when
`function.dir().can_compose()` is true — Python's `and` short-circuits),
and on a variable `function.res()` (at `function.res().arg()` in the
final comparison).  These raising evaluations are `.error`; the source's
check order and short-circuiting are preserved. -/
def can_combine (function argument : Categ) : Except String Bool :=
  if function.is_primitive || argument.is_primitive then .ok false
  else if !function.is_function then
    .error "AttributeError: CCGVar has no attribute res"
  else if function.res.is_primitive then .ok false
  else if !function.arg.is_primitive then .ok false
  else if !function.dir.can_compose then .ok false
  else if !argument.is_function then
    .error "AttributeError: CCGVar has no attribute dir"
  else if !argument.dir.can_compose then .ok false
  else if !function.res.is_function then
    .error "AttributeError: CCGVar has no attribute arg"
  else .ok ((function.res.arg == argument.res) && (function.arg == argument.arg))

/-- `Substitution.combine` (ccg/combinator/substitution.py).  The module
imports only `BinaryCombinator` — `FunctionalCategory` is never imported
— so executing the yield raises `NameError` whenever `can_combine` holds:
iterating the generator never produces a category.  When `can_combine`
is false the generator finishes with no yield; an error raised while
evaluating `can_combine` propagates. -/
def combine (function argument : Categ) : Except String (List Categ) := do
  let b ← can_combine function argument
  if b then .error "NameError: name FunctionalCategory is not defined"
  else .ok ([] : List Categ)

/-- The category the yield at substitution.py line 29 is written to build
(`FunctionalCategory(function.res().res(), argument.arg(),
argument.dir())`): the documented intent of the combinator (spec §4.2 and
the module's tests), never actually constructed because the name is not
imported. -/
def intendedCategory (function argument : Categ) : Categ :=
  .func function.res.res argument.arg argument.dir

end Substitution

/-- `innermostFunction` (ccg/combinator/combinator.py): walk into the
result while it is functional. -/
def innermostFunction : Categ → Categ
  | .func r a d => if r.is_function then innermostFunction r else .func r a d
  | c => c

namespace TypeRaise

/-- `TypeRaise.can_combine` (ccg/combinator/combinator.py). -/
def can_combine (function arg : Categ) : Bool :=
  if !(arg.is_function && arg.res.is_function) then false
  else
    let a := innermostFunction arg
    (function.can_unify a.arg).isSome

/-- `TypeRaise.combine` (ccg/combinator/combinator.py). -/
def combine (function arg : Categ) : List Categ :=
  if !(function.is_primitive && arg.is_function && arg.res.is_function) then []
  else
    let a := innermostFunction arg
    match function.can_unify a.arg with
    | some subs =>
      let xcat := a.res.substitute subs
      [.func xcat (.func xcat function a.dir) a.dir.neg]
    | none => []

end TypeRaise

/-! ## Directional wrappers (`ccg/combinator/base.py`) -/

/-- An undirected combinator: `can_combine` and `combine` over
`(function, argument)` pairs. -/
structure UndirectedCombinator where
  can_combine : Categ → Categ → Bool
  combine : Categ → Categ → List Categ

/-- An applicability predicate over a `(left, right)` pair of categories. -/
abbrev CPred := Categ → Categ → Bool

/-- `ForwardCombinator` (ccg/combinator/base.py): an undirected combinator
plus a restricting predicate; the primary functor is on the left. -/
structure ForwardCombinator where
  combinator : UndirectedCombinator
  predicate : CPred

def ForwardCombinator.can_combine (fc : ForwardCombinator) (left right : Categ) : Bool :=
  fc.combinator.can_combine left right && fc.predicate left right

def ForwardCombinator.combine (fc : ForwardCombinator) (left right : Categ) : List Categ :=
  fc.combinator.combine left right

/-- `BackwardCombinator` (ccg/combinator/base.py): delegates to the
undirected combinator on the swapped pair, but evaluates the predicate on
the original order. -/
structure BackwardCombinator where
  combinator : UndirectedCombinator
  predicate : CPred

def BackwardCombinator.can_combine (bc : BackwardCombinator) (left right : Categ) : Bool :=
  bc.combinator.can_combine right left && bc.predicate left right

def BackwardCombinator.combine (bc : BackwardCombinator) (left right : Categ) : List Categ :=
  bc.combinator.combine right left

/-! ## Predicates and rule instances (`ccg/combinator/combinator.py`) -/

def forwardOnly (left _right : Categ) : Bool := left.dir.is_forward

def backwardOnly (_left right : Categ) : Bool := right.dir.is_backward

def bothForward (left right : Categ) : Bool :=
  left.dir.is_forward && right.dir.is_forward

def crossedDirs (left right : Categ) : Bool :=
  left.dir.is_forward && right.dir.is_backward

/-- `backwardBxConstraint`; the second test transcribes the source's
`not left.dir().can_cross() and right.dir().can_cross()` with Python
precedence, i.e. `(!can_cross left) && can_cross right`. -/
def backwardBxConstraint (left right : Categ) : Bool :=
  if !crossedDirs left right then false
  else if !left.dir.can_cross && right.dir.can_cross then false
  else left.arg.is_primitive

def forwardSConstraint (left right : Categ) : Bool :=
  if !bothForward left right then false
  else left.res.dir.is_forward && left.arg.is_primitive

def backwardSxConstraint (left right : Categ) : Bool :=
  if !left.dir.can_cross && right.dir.can_cross then false
  else if !bothForward left right then false
  else right.res.dir.is_backward && right.arg.is_primitive

def forwardTConstraint (_left right : Categ) : Bool :=
  let a := innermostFunction right
  a.dir.is_backward && a.res.is_primitive

def backwardTConstraint (left _right : Categ) : Bool :=
  let a := innermostFunction left
  a.dir.is_forward && a.res.is_primitive

def FunctionApplicationU : UndirectedCombinator :=
  ⟨FunctionApplication.can_combine, FunctionApplication.combine⟩

def CompositionU : UndirectedCombinator :=
  ⟨Composition.can_combine, Composition.combine⟩

def TypeRaiseU : UndirectedCombinator :=
  ⟨TypeRaise.can_combine, TypeRaise.combine⟩

def ForwardApplication : ForwardCombinator := ⟨FunctionApplicationU, forwardOnly⟩

def BackwardApplication : BackwardCombinator := ⟨FunctionApplicationU, backwardOnly⟩

/-- `ForwardSubstitution = ForwardCombinator(Substitution(),
forwardSConstraint)`.  `Substitution`'s methods are fallible, so the
wrapper's delegation is spelled out: `can_combine` conjoins the predicate
(evaluated, per Python's `and`, only when the undirected check returned
true without raising) and `combine` delegates unswapped, propagating any
raise. -/
def ForwardSubstitution.can_combine (left right : Categ) : Except String Bool := do
  let b ← Substitution.can_combine left right
  if b then .ok (forwardSConstraint left right) else .ok false

def ForwardSubstitution.combine (left right : Categ) : Except String (List Categ) :=
  Substitution.combine left right

/-- `BackwardSx = BackwardCombinator(Substitution(), backwardSxConstraint,
"x")`: the undirected combinator runs on the swapped pair, the predicate
on the original order (only when the undirected check returned true
without raising), and `combine` delegates on the swapped pair. -/
def BackwardSx.can_combine (left right : Categ) : Except String Bool := do
  let b ← Substitution.can_combine right left
  if b then .ok (backwardSxConstraint left right) else .ok false

def BackwardSx.combine (left right : Categ) : Except String (List Categ) :=
  Substitution.combine right left

def ForwardComposition : ForwardCombinator := ⟨CompositionU, forwardOnly⟩

def BackwardComposition : BackwardCombinator := ⟨CompositionU, backwardOnly⟩

def BackwardBx : BackwardCombinator := ⟨CompositionU, backwardBxConstraint⟩

def ForwardT : ForwardCombinator := ⟨TypeRaiseU, forwardTConstraint⟩

def BackwardT : BackwardCombinator := ⟨TypeRaiseU, backwardTConstraint⟩

/-- Identifier of a directed rule of the default rule set
(`chart.DefaultRuleSet`); chart edges record the producing rule and edge
deduplication compares it. -/
inductive RuleId where
  | fApp | bApp | fComp | bComp | bBx | fSub | bSx | fT | bT
deriving DecidableEq, Repr

/-- `isinstance(edge.rule(), BackwardCombinator)` in `compute_semantics`. -/
def RuleId.isBackward : RuleId → Bool
  | .bApp | .bComp | .bBx | .bSx | .bT => true
  | _ => false

/-- The undirected combinator class underlying each directed rule, used by
the `isinstance` dispatch in `compute_semantics`. -/
inductive UKind where
  | appK | compK | subK | raiseK
deriving DecidableEq, Repr

def RuleId.ukind : RuleId → UKind
  | .fApp | .bApp => .appK
  | .fComp | .bComp | .bBx => .compK
  | .fSub | .bSx => .subK
  | .fT | .bT => .raiseK

/-- Boolean `can_combine` of the directed rule denoted by a `RuleId`,
used by the step relation.  The substitution rules' `can_combine` can
raise (see `Substitution.can_combine`); a raising evaluation is mapped to
`false` here, since on such inputs the source inserts no edge (it
aborts) — the relation still covers every insertion the source performs. -/
def RuleId.canCombine : RuleId → Categ → Categ → Bool
  | .fApp => ForwardApplication.can_combine
  | .bApp => BackwardApplication.can_combine
  | .fComp => ForwardComposition.can_combine
  | .bComp => BackwardComposition.can_combine
  | .bBx => BackwardBx.can_combine
  | .fSub => fun l r =>
    match ForwardSubstitution.can_combine l r with
    | .ok b => b
    | .error _ => false
  | .bSx => fun l r =>
    match BackwardSx.can_combine l r with
    | .ok b => b
    | .error _ => false
  | .fT => ForwardT.can_combine
  | .bT => BackwardT.can_combine

/-- The categories the directed rule's `combine` actually yields.  The
substitution rules yield none: their generator raises `NameError` before
the first yield whenever it would have produced one (see
`Substitution.combine` and the fallible `RuleId.combineE`). -/
def RuleId.combineCategs : RuleId → Categ → Categ → List Categ
  | .fApp => ForwardApplication.combine
  | .bApp => BackwardApplication.combine
  | .fComp => ForwardComposition.combine
  | .bComp => BackwardComposition.combine
  | .bBx => BackwardBx.combine
  | .fSub => fun _ _ => []
  | .bSx => fun _ _ => []
  | .fT => ForwardT.combine
  | .bT => BackwardT.combine

/-- Directed `can_combine` as the fallible computation the source runs:
the substitution rules can raise while evaluating it, every other rule
returns its Boolean. -/
def RuleId.canCombineE : RuleId → Categ → Categ → Except String Bool
  | .fSub => ForwardSubstitution.can_combine
  | .bSx => BackwardSx.can_combine
  | r => fun l r' => .ok (r.canCombine l r')

/-- Directed `combine` as the fallible computation the source runs when
the chart iterates it: the substitution rules raise `NameError` whenever
their undirected `can_combine` holds, every other rule yields its list. -/
def RuleId.combineE : RuleId → Categ → Categ → Except String (List Categ)
  | .fSub => ForwardSubstitution.combine
  | .bSx => BackwardSx.combine
  | r => fun l r' => .ok (r.combineCategs l r')

/-- The seven rules wrapped in `BinaryCombinatorRule` by the default rule
set (the two type-raising rules have their own chart rule classes). -/
def binaryRules : List RuleId :=
  [.fApp, .bApp, .fComp, .bComp, .bBx, .fSub, .bSx]

/-- `DefaultRuleSet` (ccg/chart.py), in source order. -/
def DefaultRuleSet : List RuleId :=
  [.fApp, .bApp, .fComp, .bComp, .bBx, .fSub, .bSx, .fT, .bT]

/-! ## Logical terms (spec §6: the logical-expression library is an
external collaborator; the composition helpers live in `ccg/logic.py`,
which is not in the source tree).  Both are modelled from the spec. -/

/-- Modelled from the spec (§6): term constructors for constant, variable,
application and abstraction. -/
inductive Term where
  | cst (name : String)
  | tvar (name : String)
  | app (function argument : Term)
  | lam (v : String) (body : Term)
deriving DecidableEq, Repr

/-- Modelled from the spec (§6): `free_variables(term)`. -/
def Term.freeVars : Term → List String
  | .cst _ => []
  | .tvar n => [n]
  | .app f a => f.freeVars ++ a.freeVars
  | .lam v b => b.freeVars.filter (· ≠ v)

/-- Capture-naive replacement of a variable by a term, the building block
of beta reduction. -/
def Term.replace : Term → String → Term → Term
  | .cst n, _, _ => .cst n
  | .tvar n, v, s => if n = v then s else .tvar n
  | .app f a, v, s => .app (f.replace v s) (a.replace v s)
  | .lam u b, v, s => if u = v then .lam u b else .lam u (b.replace v s)

/-- Modelled from the spec (§6): `simplify` performs beta reduction; the
fuel bounds the number of nested reduction passes (the library's recursive
normalisation, which no claim depends on). -/
def simplifyFuel : Nat → Term → Term
  | 0, t => t
  | n + 1, .app f a =>
    match simplifyFuel n f, simplifyFuel n a with
    | .lam v b, a' => simplifyFuel n (b.replace v a')
    | f', a' => .app f' a'
  | n + 1, .lam v b => .lam v (simplifyFuel n b)
  | _ + 1, t => t

def simplify (t : Term) : Term := simplifyFuel 100 t

/-- Modelled from the spec (§4.5, Application): apply the function term to
the argument term and beta-reduce. -/
def compute_function_semantics (function argument : Term) : Term :=
  simplify (.app function argument)

/-- Modelled from the spec (§4.5, Composition): the argument term must be
an abstraction; a shape mismatch is a fatal internal error. -/
def compute_composition_semantics (function argument : Term) : Except String Term :=
  match argument with
  | .lam v body => .ok (.lam v (simplify (.app function body)))
  | _ => .error "composition argument must be a lambda expression"

/-- Modelled from the spec (§4.5, Substitution): the function term must be
a nested abstraction and the argument term an abstraction; a shape
mismatch is a fatal internal error. -/
def compute_substitution_semantics (function argument : Term) : Except String Term :=
  match function, argument with
  | .lam v₁ (.lam _ body), .lam _ _ =>
    .ok (.lam v₁ (simplify (.app body (simplify (.app argument (.tvar v₁))))))
  | _, _ => .error "substitution operands must be lambda expressions"

/-- Modelled from the spec (§4.5, TypeRaise): a deterministic
counter-suffixed fresh variable avoiding a given name set. -/
def freshVar (avoid : List String) : String :=
  let cands := (List.range (avoid.length + 1)).map
    (fun i => if i = 0 then "F" else "F" ++ toString i)
  (cands.filter (fun n => n ∉ avoid)).headD "F"

/-- Modelled from the spec (§4.5, TypeRaise): abstract the operand's term
over a fresh function variable applied to it. -/
def compute_type_raised_semantics (t : Term) : Term :=
  let v := freshVar t.freeVars
  .lam v (.app (.tvar v) t)

/-! ## Lexicon (`ccg/lexicon.py`) -/

/-- `Token` (ccg/lexicon.py): surface text, category, optional semantics. -/
structure TokenL where
  text : String
  categ : Categ
  semantics : Option Term
deriving DecidableEq, Repr

/-- `CCGLexicon` (ccg/lexicon.py): the start symbol (stored as
`PrimitiveCategory(start)`) and the word entries.  `fromstring` builds the
entries as a `defaultdict(list)`, so lookup of an absent word yields the
empty list instead of failing; `categories` below reproduces that. -/
structure CCGLexicon where
  startName : String
  entries : List (String × List TokenL)

/-- `CCGLexicon.categories` (ccg/lexicon.py line 96-98): `self._entries[word]`
on the `defaultdict(list)` built by `fromstring` — an unknown word yields
`[]`, it does not raise. -/
def CCGLexicon.categories (lex : CCGLexicon) (word : String) : List TokenL :=
  (lex.entries.lookup word).getD []

/-- `CCGLexicon.start` (ccg/lexicon.py): `PrimitiveCategory(start)`. -/
def CCGLexicon.start (lex : CCGLexicon) : Categ := .prim lex.startName []

/-! ## Derivation trees (`CCGChart._trees`, ccg/chart.py) -/

/-- A derivation tree as built by `CCGChart._trees`: a leaf node wraps the
originating token and the surface word; an internal node carries the
covered words, the edge's category, the computed semantics, the producing
rule and the child subtrees in child-pointer order. -/
inductive DTree where
  | leaf (token : TokenL) (word : String)
  | node (words : List String) (categ : Categ) (semantics : Option Term)
      (rule : RuleId) (children : List DTree)

/-- `tree.label()[0].semantics()`: the semantic term of a subtree's label
token. -/
def DTree.labelSem : DTree → Option Term
  | .leaf tok _ => tok.semantics
  | .node _ _ sem _ _ => sem

/-- `tree.label()[0].categ()`. -/
def DTree.labelCateg : DTree → Categ
  | .leaf tok _ => tok.categ
  | .node _ c _ _ _ => c

/-- `compute_semantics` (ccg/chart.py lines 346-367).  The source checks
only `children[0]` for absent semantics; for two children it swaps the pair
when the rule is a `BackwardCombinator`, then dispatches on the rule's
undirected combinator class.  An absent term on the other operand reaches
the term constructors of the logic library, which have no meaning for an
absent operand (fatal in the source); any other child count falls into the
type-raising branch. -/
def compute_semantics (children : List DTree) (rule : RuleId) :
    Except String (Option Term) :=
  match children with
  | [] => .error "children index out of range"
  | c₀ :: rest =>
    match c₀.labelSem with
    | none => .ok none
    | some t₀ =>
      match rest with
      | [c₁] =>
        let pair := if rule.isBackward then (c₁, c₀) else (c₀, c₁)
        match pair.1.labelSem, pair.2.labelSem with
        | some function, some argument =>
          match rule.ukind with
          | .appK => .ok (some (compute_function_semantics function argument))
          | .compK => (compute_composition_semantics function argument).map some
          | .subK => (compute_substitution_semantics function argument).map some
          | .raiseK => .error "Unsupported combinator"
        | _, _ => .error "operand without a semantic term"
      | _ => .ok (some (compute_type_raised_semantics t₀))

/-! ## Chart edges and edge storage (`ccg/chart.py`, NLTK `Chart`) -/

/-- A chart edge: `CCGLeafEdge(pos, token, leaf)` or
`CCGEdge(span, categ, rule)`. -/
inductive CEdge where
  | leaf (pos : Nat) (token : TokenL) (word : String)
  | derived (span : Nat × Nat) (categ : Categ) (rule : RuleId)
deriving DecidableEq, Repr

/-- The `_comparison_key` used for edge identity (together with the edge's
class): `(pos, token.categ(), leaf)` for leaf edges and
`(span, categ, rule)` for derived edges. -/
inductive EdgeKey where
  | leafK (pos : Nat) (categ : Categ) (word : String)
  | derivedK (span : Nat × Nat) (categ : Categ) (rule : RuleId)
deriving DecidableEq, Repr

def CEdge.key : CEdge → EdgeKey
  | .leaf p tok w => .leafK p tok.categ w
  | .derived sp c r => .derivedK sp c r

def CEdge.startPos : CEdge → Nat
  | .leaf p _ _ => p
  | .derived sp _ _ => sp.1

def CEdge.endPos : CEdge → Nat
  | .leaf p _ _ => p + 1
  | .derived sp _ _ => sp.2

def CEdge.spanOf (e : CEdge) : Nat × Nat := (e.startPos, e.endPos)

/-- `edge.lhs()` / `edge.categ()`. -/
def CEdge.categOf : CEdge → Categ
  | .leaf _ tok _ => tok.categ
  | .derived _ c _ => c

/-- The chart's edge store in insertion order: each stored edge with its
child-pointer-list alternatives, also in insertion order. -/
abbrev Chart := List (CEdge × List (List CEdge))

/-- NLTK `Chart.insert`: a new edge is appended with its child-pointer
list; for an edge already present (same comparison key) the first stored
edge object is kept and the child-pointer list is appended unless already
recorded. -/
def Chart.insertEdge : Chart → CEdge → List CEdge → Chart
  | [], e, cpl => [(e, [cpl])]
  | (e', cpls) :: rest, e, cpl =>
    if e'.key = e.key then
      if cpl ∈ cpls then (e', cpls) :: rest
      else (e', cpls ++ [cpl]) :: rest
    else (e', cpls) :: Chart.insertEdge rest e cpl

/-- An edge is in the chart (under some set of child-pointer lists). -/
def Chart.hasEdge (c : Chart) (e : CEdge) : Bool :=
  c.any (fun ec => ec.1 == e)

/-- The inner loop of leaf initialisation: one leaf edge per lexicon entry
of the word at a position, inserted with an empty child-pointer list. -/
def insertLeaves (c : Chart) (index : Nat) (word : String) (tokens : List TokenL) : Chart :=
  tokens.foldl (fun c token => c.insertEdge (.leaf index token word) []) c

/-- Leaf initialisation of `chart_parse`: for every token position, insert
the leaf edges of that word's lexicon entries. -/
def initChart (lex : CCGLexicon) (toks : List String) : Chart :=
  (List.range toks.length).foldl
    (fun c index =>
      insertLeaves c index (toks.getD index "") (lex.categories (toks.getD index "")))
    []

/-! ## Chart rules (`BinaryCombinatorRule`, `ForwardTypeRaiseRule`,
`BackwardTypeRaiseRule`) -/

/-- `BinaryCombinatorRule.apply`: for touching edges, if the directed
combinator `can_combine`, insert one edge per `combine` result spanning
both children, with child-pointer list `(left, right)`.  Both the check
and the iteration of `combine` can raise for the substitution rules; the
error propagates out of the parse. -/
def binaryRuleInsert (r : RuleId) (c : Chart) (le re : CEdge) :
    Except String Chart :=
  if le.endPos ≠ re.startPos then .ok c
  else do
    let can ← r.canCombineE le.categOf re.categOf
    if can then
      let results ← r.combineE le.categOf re.categOf
      .ok (results.foldl
        (fun c res =>
          c.insertEdge (.derived (le.startPos, re.endPos) res r) [le, re]) c)
    else .ok c

/-- `ForwardTypeRaiseRule.apply`: for touching edges, insert one edge per
`ForwardT.combine` result — note: no `can_combine` check — spanning only
the left edge, with child-pointer list `(left_edge,)`. -/
def forwardTypeRaiseInsert (c : Chart) (le re : CEdge) : Chart :=
  if le.endPos ≠ re.startPos then c
  else
    (ForwardT.combine le.categOf re.categOf).foldl
      (fun c res => c.insertEdge (.derived le.spanOf res .fT) [le]) c

/-- `BackwardTypeRaiseRule.apply`: like the forward rule but the new edge
spans only the right edge, with child-pointer list `(right_edge,)`. -/
def backwardTypeRaiseInsert (c : Chart) (le re : CEdge) : Chart :=
  if le.endPos ≠ re.startPos then c
  else
    (BackwardT.combine le.categOf re.categOf).foldl
      (fun c res => c.insertEdge (.derived re.spanOf res .bT) [re]) c

/-- Application of one rule of the rule set to an adjacent edge pair. -/
def applyRule (c : Chart) (r : RuleId) (le re : CEdge) : Except String Chart :=
  match r with
  | .fT => .ok (forwardTypeRaiseInsert c le re)
  | .bT => .ok (backwardTypeRaiseInsert c le re)
  | _ => binaryRuleInsert r c le re

/-- `for rule in rules: rule.apply(chart, lexicon, left, right)`. -/
def applyRules (rules : List RuleId) (c : Chart) (le re : CEdge) :
    Except String Chart :=
  rules.foldlM (fun c r => applyRule c r le re) c

/-- The edges currently stored for a span, in insertion order
(`chart.select(span=...)`). -/
def Chart.spanEdges (c : Chart) (sp : Nat × Nat) : List CEdge :=
  (c.filter (fun ec => ec.1.spanOf == sp)).map (·.1)

/-- The inner `for right in chart.select(span=(mid, rend))` loop.  The
source iterates NLTK index lists that grow while the loop body inserts
same-span edges (the type-raising rules do exactly that), and the list
iterator then also yields the appended edges; this is modelled by
re-reading the span's edge list at each index, with fuel bounding the
iteration. -/
def iterRights (fuel : Nat) (rules : List RuleId) (c : Chart) (le : CEdge)
    (spR : Nat × Nat) (j : Nat) : Except String Chart :=
  match fuel with
  | 0 => .ok c
  | fuel + 1 =>
    match (c.spanEdges spR).get? j with
    | none => .ok c
    | some re => do
      let c' ← applyRules rules c le re
      iterRights fuel rules c' le spR (j + 1)

/-- The outer `for left in chart.select(span=(lstart, mid))` loop,
modelled like `iterRights`. -/
def iterLefts (fuel : Nat) (rules : List RuleId) (c : Chart)
    (spL spR : Nat × Nat) (i : Nat) : Except String Chart :=
  match fuel with
  | 0 => .ok c
  | fuel + 1 =>
    match (c.spanEdges spL).get? i with
    | none => .ok c
    | some le => do
      let c' ← iterRights (fuel + 1) rules c le spR 0
      iterLefts fuel rules c' spL spR (i + 1)

/-- Iteration fuel: far more than the number of edges any span of these
charts can hold during one pass. -/
def iterFuel (toks : List String) : Nat := 1000 + 100 * toks.length

/-- The main sweep of `chart_parse`: span length from 2 to the sentence
length, start offset, split point, then all adjacent edge pairs under all
rules. -/
def chartFill (rules : List RuleId) (toks : List String) (c : Chart) :
    Except String Chart :=
  let n := toks.length
  (List.range' 2 (n - 1)).foldlM
    (fun c span =>
      (List.range (n - span + 1)).foldlM
        (fun c start =>
          (List.range' 1 (span - 1)).foldlM
            (fun c part =>
              let lstart := start
              let mid := start + part
              let rend := start + span
              iterLefts (iterFuel toks) rules c (lstart, mid) (mid, rend) 0)
            c)
        c)
    c

/-! ## Derivation extraction (`CCGChart._trees`, `Chart.parses`) -/

/-- `self._tokens[start:end]`. -/
def slice (xs : List String) (s e : Nat) : List String :=
  (xs.drop s).take (e - s)

/-- `self.child_pointer_lists(edge)`: the alternatives stored under the
edge's comparison key. -/
def cplsOf (c : Chart) (e : CEdge) : List (List CEdge) :=
  ((c.find? (fun ec => ec.1.key == e.key)).map (·.2)).getD []

/-- `itertools.product(*child_choices)`, first factor varying slowest. -/
def listProduct : List (List DTree) → List (List DTree)
  | [] => [[]]
  | xs :: rest => (xs.map (fun x => (listProduct rest).map (x :: ·))).flatten

/-- Build one derivation node per child combination; an error raised by
`compute_semantics` propagates (aborting extraction, as in the source). -/
def buildNodes (toks : List String) (sp : Nat × Nat) (cat : Categ) (r : RuleId) :
    List (List DTree) → Except String (List DTree)
  | [] => .ok []
  | children :: rest =>
    match compute_semantics children r with
    | .ok sem => do
      let more ← buildNodes toks sp cat r rest
      .ok (.node (slice toks sp.1 sp.2) cat sem r children :: more)
    | .error msg => .error msg

mutual

/-- `CCGChart._trees`: a leaf edge yields one tree wrapping the token and
the word at its position; a derived edge expands every child-pointer-list
alternative.  The fuel bounds the recursion depth (the source instead
memoises by edge identity; with the rule set embedded here the expansion
depth is bounded by the span size, so the fuel used below never runs
out on the inputs evaluated). -/
def treesOfEdge : Nat → Chart → List String → CEdge → Except String (List DTree)
  | _, _, toks, .leaf pos tok _ => .ok [.leaf tok (toks.getD pos "")]
  | 0, _, _, .derived _ _ _ => .ok []
  | fuel + 1, c, toks, .derived sp cat r =>
    expandCpls fuel c toks sp cat r (cplsOf c (.derived sp cat r))

/-- One pass of the `for cpl in self.child_pointer_lists(edge)` loop. -/
def expandCpls (fuel : Nat) (c : Chart) (toks : List String) (sp : Nat × Nat)
    (cat : Categ) (r : RuleId) :
    List (List CEdge) → Except String (List DTree)
  | [] => .ok []
  | cpl :: rest => do
    let choices ← expandChildren fuel c toks cpl
    let here ← buildNodes toks sp cat r (listProduct choices)
    let more ← expandCpls fuel c toks sp cat r rest
    .ok (here ++ more)

/-- `[self._trees(cp, ...) for cp in cpl]`. -/
def expandChildren (fuel : Nat) (c : Chart) (toks : List String) :
    List CEdge → Except String (List (List DTree))
  | [] => .ok []
  | e :: es => do
    let ts ← treesOfEdge fuel c toks e
    let rest ← expandChildren fuel c toks es
    .ok (ts :: rest)

end

/-- Recursion-depth fuel for derivation extraction. -/
def treeFuel (toks : List String) : Nat := 2 * toks.length + 10

/-- NLTK `Chart.parses(root)`: expand every edge spanning the full input
whose category equals the goal. -/
def Chart.parses (c : Chart) (toks : List String) (root : Categ) :
    Except String (List DTree) :=
  let goals := c.filter
    (fun ec => ec.1.startPos == 0 && ec.1.endPos == toks.length && ec.1.categOf == root)
  (goals.mapM (fun ec => treesOfEdge (treeFuel toks) c toks ec.1)).map List.flatten

/-- `chart_parse` (ccg/chart.py lines 275-304): leaf initialisation, CYK
sweep, then the parses for the lexicon's start category. -/
def chart_parse (lex : CCGLexicon) (toks : List String) (rules : List RuleId) :
    Except String (List DTree) := do
  let c ← chartFill rules toks (initChart lex toks)
  c.parses toks lex.start

/-! ## Relational model of chart filling

`chart_parse`'s sweep applies the chart rules to adjacent edge pairs in a
particular (mutation-sensitive) order; every insertion it performs is one
of the following steps, so every chart it builds is `Reachable`.  The
invariant theorems below hold for all reachable charts and therefore for
the chart of any parse run under any rule subset and any visit order. -/

/-- One edge insertion as performed by a chart rule of the default rule
set on a pair of adjacent stored edges. -/
inductive Step (lex : CCGLexicon) (toks : List String) : Chart → Chart → Prop
  | binary {c : Chart} {r : RuleId} {le re : CEdge} {cl cr : List (List CEdge)}
      {res : Categ} :
      r ∈ binaryRules →
      (le, cl) ∈ c → (re, cr) ∈ c →
      le.endPos = re.startPos →
      r.canCombine le.categOf re.categOf = true →
      res ∈ r.combineCategs le.categOf re.categOf →
      Step lex toks c (c.insertEdge (.derived (le.startPos, re.endPos) res r) [le, re])
  | ftr {c : Chart} {le re : CEdge} {cl cr : List (List CEdge)} {res : Categ} :
      (le, cl) ∈ c → (re, cr) ∈ c →
      le.endPos = re.startPos →
      res ∈ ForwardT.combine le.categOf re.categOf →
      Step lex toks c (c.insertEdge (.derived le.spanOf res .fT) [le])
  | btr {c : Chart} {le re : CEdge} {cl cr : List (List CEdge)} {res : Categ} :
      (le, cl) ∈ c → (re, cr) ∈ c →
      le.endPos = re.startPos →
      res ∈ BackwardT.combine le.categOf re.categOf →
      Step lex toks c (c.insertEdge (.derived re.spanOf res .bT) [re])

/-- The charts reachable during a parse of `toks` under `lex`: the
initialised chart followed by any sequence of rule applications. -/
inductive Reachable (lex : CCGLexicon) (toks : List String) : Chart → Prop
  | init : Reachable lex toks (initChart lex toks)
  | step {c c' : Chart} : Reachable lex toks c → Step lex toks c c' →
      Reachable lex toks c'

/-- The derivation trees `CCGChart._trees` extracts for an edge of a
chart: a leaf edge yields its token's tree; a derived edge yields, for
every recorded child-pointer list and every combination of child
derivations, a node carrying the semantics `compute_semantics` returns. -/
inductive TreeOf (toks : List String) (c : Chart) : CEdge → DTree → Prop
  | leaf {pos : Nat} {tok : TokenL} {w : String} {cpls : List (List CEdge)} :
      (CEdge.leaf pos tok w, cpls) ∈ c →
      TreeOf toks c (.leaf pos tok w) (.leaf tok (toks.getD pos ""))
  | node {sp : Nat × Nat} {cat : Categ} {r : RuleId} {cpls : List (List CEdge)}
      {cpl : List CEdge} {children : List DTree} {sem : Option Term} :
      (CEdge.derived sp cat r, cpls) ∈ c →
      cpl ∈ cpls →
      cpl.length = children.length →
      (∀ p, p ∈ cpl.zip children → TreeOf toks c p.1 p.2) →
      compute_semantics children r = .ok sem →
      TreeOf toks c (.derived sp cat r)
        (.node (slice toks sp.1 sp.2) cat sem r children)

/-- Membership in the result of `chart.parses(lexicon.start())`: a
derivation of a stored edge spanning the whole input with the goal
category. -/
def parsesHas (c : Chart) (toks : List String) (root : Categ) (t : DTree) : Prop :=
  ∃ e cpls, (e, cpls) ∈ c ∧ e.startPos = 0 ∧ e.endPos = toks.length ∧
    e.categOf = root ∧ TreeOf toks c e t

/-- The leaves of a derivation tree in left-to-right order (the `leaves()`
of the NLTK tree built by `_trees`: one surface word per leaf edge). -/
def treeWords : DTree → List String
  | .leaf _ w => [w]
  | .node _ _ _ _ [] => []
  | .node ws c s r (t :: ts) => treeWords t ++ treeWords (.node ws c s r ts)

/-- The label tokens of a derivation tree's leaf nodes, left to right. -/
def leafTokens : DTree → List TokenL
  | .leaf tok _ => [tok]
  | .node _ _ _ _ [] => []
  | .node ws c s r (t :: ts) => leafTokens t ++ leafTokens (.node ws c s r ts)

/-! ## Chart invariants -/

/-- An edge's key is stored in the chart. -/
def Chart.hasKey (c : Chart) (k : EdgeKey) : Bool :=
  c.any (fun ec => ec.1.key == k)

/-- A stored leaf edge's word is the sentence's word at its position, the
position is in range, and its token is the first lexicon entry of that
word carrying the token's category (later entries with an equal category
collapse into it). -/
def leafEntriesOk (lex : CCGLexicon) (toks : List String) (c : Chart) : Prop :=
  ∀ pos tok w cpls, (CEdge.leaf pos tok w, cpls) ∈ c →
    w = toks.getD pos "" ∧ pos < toks.length ∧
    (lex.categories w).find? (fun t => t.categ == tok.categ) = some tok

/-- Every stored edge has a nonempty span inside the sentence. -/
def spansOk (toks : List String) (c : Chart) : Prop :=
  ∀ e cpls, (e, cpls) ∈ c → e.startPos < e.endPos ∧ e.endPos ≤ toks.length

/-- Shape of one child-pointer list: empty for a leaf edge; for a
type-raising rule a single stored child whose span equals the parent's;
for a binary rule two stored children whose spans partition the parent's
span (the left child ends where the right one starts). -/
def childrenOk (c : Chart) : CEdge → List CEdge → Prop
  | .leaf _ _ _, [] => True
  | .derived sp _ .fT, [a] => a.spanOf = sp ∧ c.hasEdge a = true
  | .derived sp _ .bT, [a] => a.spanOf = sp ∧ c.hasEdge a = true
  | .derived sp _ r, [a, b] =>
    r ∈ binaryRules ∧ a.startPos = sp.1 ∧ a.endPos = b.startPos ∧
    b.endPos = sp.2 ∧ c.hasEdge a = true ∧ c.hasEdge b = true
  | _, _ => False

/-- Every recorded child-pointer list of every stored edge is well shaped. -/
def cplsOk (c : Chart) : Prop :=
  ∀ e cpls, (e, cpls) ∈ c → ∀ cpl ∈ cpls, childrenOk c e cpl

/-- The invariant maintained by chart filling. -/
structure ChartInv (lex : CCGLexicon) (toks : List String) (c : Chart) : Prop where
  spans : spansOk toks c
  leaves : leafEntriesOk lex toks c
  children : cplsOk c

/-- An edge whose span covers token position `i`. -/
def coversPos (e : CEdge) (i : Nat) : Prop :=
  e.startPos ≤ i ∧ i < e.endPos

/-! ## Concrete values used to evaluate the definitions -/

/-- Forward slash with no restrictions (`Direction('/', [])`). -/
def fdir : Dir := ⟨.fwd, true, true⟩

/-- Backward slash with no restrictions (`Direction('\\', [])`). -/
def bdir : Dir := ⟨.bwd, true, true⟩

def catS : Categ := .prim "S" []

def catNP : Categ := .prim "NP" []

def catN : Categ := .prim "N" []

/-- A one-word lexicon `a => S` with start category `S`. -/
def lexA : CCGLexicon := ⟨"S", [("a", [⟨"a", catS, none⟩])]⟩

/-- The same lexicon, used with an input containing the unknown word `b`. -/
def lexB : CCGLexicon := lexA

def tokDupOne : TokenL := ⟨"a", catS, some (.cst "one")⟩

def tokDupTwo : TokenL := ⟨"a", catS, some (.cst "two")⟩

/-- A lexicon giving `a` two entries of the same category `S` with
different semantic terms. -/
def lexDup : CCGLexicon := ⟨"S", [("a", [tokDupOne, tokDupTwo])]⟩

/-- Leaf edge `a : NP` at position 0. -/
def tcLeft : CEdge := .leaf 0 ⟨"a", catNP, none⟩ "a"

/-- Leaf edge `b : (S/NP)/NP` at position 1: its innermost function
`S/NP` has a forward slash, so `forwardTConstraint` rejects the pair. -/
def tcRight : CEdge :=
  .leaf 1 ⟨"b", .func (.func catS catNP fdir) catNP fdir, none⟩ "b"

/-- The category `ForwardT.combine` yields for `tcLeft, tcRight`:
`S\(S/NP)`. -/
def tcRaised : Categ := .func catS (.func catS catNP fdir) bdir

/-- Lexicon `a => NP`, `b => (S/NP)/NP` for exercising the type-raising
rule inside a chart. -/
def lexTR : CCGLexicon :=
  ⟨"S", [("a", [⟨"a", catNP, none⟩]),
         ("b", [⟨"b", .func (.func catS catNP fdir) catNP fdir, none⟩])]⟩

/-- Derivation subtree with a semantic term (`a : S/NP {f}`). -/
def semTree1 : DTree := .leaf ⟨"a", .func catS catNP fdir, some (.cst "f")⟩ "a"

/-- Derivation subtree without a semantic term (`b : NP`). -/
def semTree2 : DTree := .leaf ⟨"b", catNP, none⟩ "b"

def catX : Categ := .prim "X" []

def catY : Categ := .prim "Y" []

def catZ : Categ := .prim "Z" []

/-- `(X\Y)/Z`: a substitution function operand. -/
def subF : Categ := .func (.func catX catY bdir) catZ fdir

/-- `Y/Z`: a substitution argument operand. -/
def subA : Categ := .func catY catZ fdir

/-- `S/N`: a composition function operand. -/
def compF : Categ := .func catS catN fdir

/-- `N/NP`: a composition argument operand. -/
def compA : Categ := .func catN catNP fdir

/-- Lexicon `a => NP`, `b => S\NP`. -/
def lexAB : CCGLexicon :=
  ⟨"S", [("a", [⟨"a", catNP, none⟩]), ("b", [⟨"b", .func catS catNP bdir, none⟩])]⟩

def leafA2 : CEdge := .leaf 0 ⟨"a", catNP, none⟩ "a"

def leafB2 : CEdge := .leaf 1 ⟨"b", .func catS catNP bdir, none⟩ "b"

/-- The chart for `a b` under `lexAB` after one backward application. -/
def chartAB : Chart :=
  (initChart lexAB ["a", "b"]).insertEdge (.derived (0, 2) catS .bApp) [leafA2, leafB2]

/-! ## Lemmas about edge insertion -/

theorem mem_insertEdge {c : Chart} {e : CEdge} {cpl : List CEdge} {a : CEdge}
    {cplsa : List (List CEdge)} (h : (a, cplsa) ∈ c.insertEdge e cpl) :
    (a, cplsa) ∈ c ∨
    (∃ cpls₀, (a, cpls₀) ∈ c ∧ a.key = e.key ∧ cpl ∉ cpls₀ ∧ cplsa = cpls₀ ++ [cpl]) ∨
    (a = e ∧ cplsa = [cpl] ∧ c.hasKey e.key = false) := by
  induction c with
  | nil =>
    simp only [Chart.insertEdge, List.mem_singleton, Prod.mk.injEq] at h
    exact Or.inr (Or.inr ⟨h.1, h.2, rfl⟩)
  | cons hd rest ih =>
    obtain ⟨e', cpls'⟩ := hd
    by_cases hk : e'.key = e.key
    · by_cases hc : cpl ∈ cpls'
      · simp only [Chart.insertEdge, if_pos hk, if_pos hc] at h
        exact Or.inl h
      · simp only [Chart.insertEdge, if_pos hk, if_neg hc, List.mem_cons,
          Prod.mk.injEq] at h
        rcases h with ⟨ha, hcpls⟩ | h
        · subst ha
          exact Or.inr (Or.inl ⟨cpls', List.mem_cons_self _ _, hk, hc, hcpls⟩)
        · exact Or.inl (List.mem_cons_of_mem _ h)
    · simp only [Chart.insertEdge, if_neg hk, List.mem_cons, Prod.mk.injEq] at h
      rcases h with ⟨ha, hcpls⟩ | h
      · exact Or.inl (by simp [ha, hcpls])
      · rcases ih h with h' | h' | h'
        · exact Or.inl (List.mem_cons_of_mem _ h')
        · obtain ⟨cpls₀, hm, hkey, hnc, hcp⟩ := h'
          exact Or.inr (Or.inl ⟨cpls₀, List.mem_cons_of_mem _ hm, hkey, hnc, hcp⟩)
        · refine Or.inr (Or.inr ⟨h'.1, h'.2.1, ?_⟩)
          simp only [Chart.hasKey, List.any_cons, Bool.or_eq_false_iff]
          exact ⟨by simpa using hk, h'.2.2⟩

theorem mem_insertEdge_of_mem {c : Chart} {e : CEdge} {cpl : List CEdge} {a : CEdge}
    {cplsa : List (List CEdge)} (h : (a, cplsa) ∈ c) :
    ∃ cplsa', (a, cplsa') ∈ c.insertEdge e cpl ∧
      (cplsa' = cplsa ∨ cplsa' = cplsa ++ [cpl]) := by
  induction c with
  | nil => cases h
  | cons hd rest ih =>
    obtain ⟨e', cpls'⟩ := hd
    by_cases hk : e'.key = e.key
    · by_cases hc : cpl ∈ cpls'
      · refine ⟨cplsa, ?_, Or.inl rfl⟩
        simpa only [Chart.insertEdge, if_pos hk, if_pos hc] using h
      · rcases List.mem_cons.mp h with heq | hmem
        · rw [Prod.mk.injEq] at heq
          obtain ⟨ha, hcpls⟩ := heq
          refine ⟨cplsa ++ [cpl], ?_, Or.inr rfl⟩
          simp only [Chart.insertEdge, if_pos hk, if_neg hc, List.mem_cons,
            Prod.mk.injEq]
          exact Or.inl ⟨ha, by rw [hcpls]⟩
        · refine ⟨cplsa, ?_, Or.inl rfl⟩
          simp only [Chart.insertEdge, if_pos hk, if_neg hc, List.mem_cons]
          exact Or.inr hmem
    · rcases List.mem_cons.mp h with heq | hmem
      · refine ⟨cplsa, ?_, Or.inl rfl⟩
        simp only [Chart.insertEdge, if_neg hk, List.mem_cons]
        exact Or.inl heq
      · obtain ⟨cplsa', hm, hor⟩ := ih hmem
        refine ⟨cplsa', ?_, hor⟩
        simp only [Chart.insertEdge, if_neg hk, List.mem_cons]
        exact Or.inr hm

theorem hasEdge_iff {c : Chart} {a : CEdge} :
    c.hasEdge a = true ↔ ∃ cpls, (a, cpls) ∈ c := by
  simp only [Chart.hasEdge, List.any_eq_true, beq_iff_eq]
  constructor
  · rintro ⟨⟨e', cpls⟩, hm, he⟩
    exact ⟨cpls, (show e' = a from he) ▸ hm⟩
  · rintro ⟨cpls, hm⟩
    exact ⟨(a, cpls), hm, rfl⟩

theorem hasEdge_insertEdge {c : Chart} {e : CEdge} {cpl : List CEdge} {a : CEdge}
    (h : c.hasEdge a = true) : (c.insertEdge e cpl).hasEdge a = true := by
  rw [hasEdge_iff] at h ⊢
  obtain ⟨cpls, hm⟩ := h
  obtain ⟨cpls', hm', _⟩ := @mem_insertEdge_of_mem c e cpl a cpls hm
  exact ⟨cpls', hm'⟩

theorem hasKey_insertEdge_self (c : Chart) (e : CEdge) (cpl : List CEdge) :
    (c.insertEdge e cpl).hasKey e.key = true := by
  induction c with
  | nil => simp [Chart.insertEdge, Chart.hasKey]
  | cons hd rest ih =>
    obtain ⟨e', cpls'⟩ := hd
    by_cases hk : e'.key = e.key
    · by_cases hc : cpl ∈ cpls' <;>
        simp [Chart.insertEdge, hk, hc, Chart.hasKey]
    · simp only [Chart.insertEdge, if_neg hk, Chart.hasKey, List.any_cons]
      rw [Chart.hasKey] at ih
      simp [ih]

theorem hasKey_insertEdge_mono {c : Chart} {e : CEdge} {cpl : List CEdge} {k : EdgeKey}
    (h : c.hasKey k = true) : (c.insertEdge e cpl).hasKey k = true := by
  induction c with
  | nil => simp [Chart.hasKey] at h
  | cons hd rest ih =>
    obtain ⟨e', cpls'⟩ := hd
    simp only [Chart.hasKey, List.any_cons, Bool.or_eq_true] at h
    by_cases hk : e'.key = e.key
    · by_cases hc : cpl ∈ cpls'
      · simp only [Chart.insertEdge, if_pos hk, if_pos hc, Chart.hasKey,
          List.any_cons, Bool.or_eq_true]
        exact h
      · simp only [Chart.insertEdge, if_pos hk, if_neg hc, Chart.hasKey,
          List.any_cons, Bool.or_eq_true]
        exact h
    · simp only [Chart.insertEdge, if_neg hk, Chart.hasKey, List.any_cons,
        Bool.or_eq_true]
      rcases h with h | h
      · exact Or.inl h
      · refine Or.inr ?_
        have := ih (by simpa [Chart.hasKey] using h)
        simpa [Chart.hasKey] using this

/-! ## The initialised chart -/

/-- Shape of every entry of `initChart`: a leaf edge for an in-range
position, with the empty child-pointer list as its only alternative,
whose token is the first lexicon entry of the word carrying that token's
category. -/
def initEntryOk (lex : CCGLexicon) (toks : List String)
    (p : CEdge × List (List CEdge)) : Prop :=
  ∃ pos tok w, p.1 = CEdge.leaf pos tok w ∧ p.2 = [[]] ∧ w = toks.getD pos "" ∧
    pos < toks.length ∧
    (lex.categories w).find? (fun t => t.categ == tok.categ) = some tok

theorem insertLeaves_ok (lex : CCGLexicon) (toks : List String) (k : Nat)
    (hk : k < toks.length) :
    ∀ (suffix pre : List TokenL) (c : Chart),
      lex.categories (toks.getD k "") = pre ++ suffix →
      (∀ p ∈ c, initEntryOk lex toks p) →
      (∀ t ∈ pre, c.hasKey (.leafK k t.categ (toks.getD k "")) = true) →
      (∀ p ∈ insertLeaves c k (toks.getD k "") suffix, initEntryOk lex toks p) ∧
      (∀ t ∈ pre ++ suffix,
        (insertLeaves c k (toks.getD k "") suffix).hasKey
          (.leafK k t.categ (toks.getD k "")) = true) := by
  intro suffix
  induction suffix with
  | nil =>
    intro pre c _hcat hok hkeys
    refine ⟨hok, ?_⟩
    simpa using hkeys
  | cons tok rest ih =>
    intro pre c hcat hok hkeys
    have hstep : insertLeaves c k (toks.getD k "") (tok :: rest) =
        insertLeaves (c.insertEdge (.leaf k tok (toks.getD k "")) []) k
          (toks.getD k "") rest := by
      simp [insertLeaves]
    have hok' : ∀ p ∈ c.insertEdge (.leaf k tok (toks.getD k "")) [],
        initEntryOk lex toks p := by
      rintro ⟨a, cplsa⟩ hp
      rcases mem_insertEdge hp with hp | hp | hp
      · exact hok _ hp
      · obtain ⟨cpls₀, hm, _, hnc, _⟩ := hp
        obtain ⟨pos, tok', w', _, hcpls, _⟩ := hok _ hm
        have hcpls' : cpls₀ = [[]] := hcpls
        rw [hcpls'] at hnc
        simp at hnc
      · obtain ⟨ha, hcplsa, hfresh⟩ := hp
        refine ⟨k, tok, toks.getD k "", by simp [ha], by simp [hcplsa], rfl, hk, ?_⟩
        have hnotpre : ∀ t ∈ pre, (t.categ == tok.categ) = false := by
          intro t ht
          by_contra hbe
          have hteq : t.categ = tok.categ := by
            simpa using (Bool.not_eq_false _).mp hbe
          have := hkeys t ht
          rw [hteq] at this
          rw [CEdge.key] at hfresh
          simp only [this] at hfresh
          simp at hfresh
        rw [hcat, List.find?_append]
        have hpre : pre.find? (fun t => t.categ == tok.categ) = none :=
          List.find?_eq_none.mpr (fun x hx => by simp [hnotpre x hx])
        rw [hpre]
        simp [List.find?]
    have hkeys' : ∀ t ∈ pre ++ [tok],
        (c.insertEdge (.leaf k tok (toks.getD k "")) []).hasKey
          (.leafK k t.categ (toks.getD k "")) = true := by
      intro t ht
      rcases List.mem_append.mp ht with ht | ht
      · exact hasKey_insertEdge_mono (hkeys t ht)
      · have : t = tok := by simpa using ht
        subst this
        exact hasKey_insertEdge_self c _ _
    have hcat' : lex.categories (toks.getD k "") = (pre ++ [tok]) ++ rest := by
      rw [hcat]; simp
    obtain ⟨h₁, h₂⟩ := ih (pre ++ [tok]) _ hcat' hok' hkeys'
    rw [hstep]
    refine ⟨h₁, ?_⟩
    intro t ht
    apply h₂
    simp only [List.append_assoc, List.cons_append, List.nil_append] at ht ⊢
    exact ht

theorem initChart_ok (lex : CCGLexicon) (toks : List String) :
    ∀ p ∈ initChart lex toks, initEntryOk lex toks p := by
  rw [initChart]
  have main : ∀ (ks : List Nat) (c : Chart),
      (∀ k ∈ ks, k < toks.length) →
      (∀ p ∈ c, initEntryOk lex toks p) →
      ∀ p ∈ ks.foldl
        (fun c index =>
          insertLeaves c index (toks.getD index "") (lex.categories (toks.getD index ""))) c,
        initEntryOk lex toks p := by
    intro ks
    induction ks with
    | nil => intro c _ hok; simpa using hok
    | cons k rest ih =>
      intro c hks hok
      simp only [List.foldl_cons]
      refine ih _ (fun j hj => hks j (List.mem_cons_of_mem _ hj)) ?_
      have hk : k < toks.length := hks k (List.mem_cons_self _ _)
      exact (insertLeaves_ok lex toks k hk (lex.categories (toks.getD k "")) [] c
        (by simp) hok (by simp)).1
  exact main (List.range toks.length) [] (fun k hk => List.mem_range.mp hk) (by simp)

theorem initChart_inv (lex : CCGLexicon) (toks : List String) :
    ChartInv lex toks (initChart lex toks) := by
  have hok := initChart_ok lex toks
  refine ⟨?_, ?_, ?_⟩
  · rintro e cpls hm
    obtain ⟨pos, tok, w, he, _, _, hpos, _⟩ := hok _ hm
    have he' : e = CEdge.leaf pos tok w := he
    subst he'
    simp only [CEdge.startPos, CEdge.endPos]
    omega
  · intro pos tok w cpls hm
    obtain ⟨pos', tok', w', he, _, hw, hpos, hfind⟩ := hok _ hm
    have he' : CEdge.leaf pos tok w = CEdge.leaf pos' tok' w' := he
    injection he' with h1 h2 h3
    subst h1; subst h2; subst h3
    exact ⟨hw, hpos, hfind⟩
  · intro e cpls hm cpl hcpl
    obtain ⟨pos, tok, w, he, hcpls, _⟩ := hok _ hm
    have he' : e = CEdge.leaf pos tok w := he
    have hcpls' : cpls = [[]] := hcpls
    subst he'; subst hcpls'
    have hc : cpl = [] := by simpa using hcpl
    subst hc
    trivial

theorem childrenOk_mono {c : Chart} {e : CEdge} {cpl : List CEdge} :
    ∀ {x : CEdge} {xcpl : List CEdge}, childrenOk c x xcpl →
      childrenOk (c.insertEdge e cpl) x xcpl := by
  intro x xcpl h
  cases x with
  | leaf p t w =>
    cases xcpl with
    | nil => exact h
    | cons a l => exact False.elim h
  | derived sp cat r =>
    cases r <;> rcases xcpl with _ | ⟨a, _ | ⟨b, _ | ⟨c₃, tl⟩⟩⟩ <;>
      first
        | exact False.elim h
        | exact ⟨h.1, hasEdge_insertEdge h.2⟩
        | exact ⟨h.1, h.2.1, h.2.2.1, h.2.2.2.1, hasEdge_insertEdge h.2.2.2.2.1,
            hasEdge_insertEdge h.2.2.2.2.2⟩

theorem key_eq_derived {a : CEdge} {sp : Nat × Nat} {cat : Categ} {r : RuleId}
    (h : a.key = (CEdge.derived sp cat r).key) : a = .derived sp cat r := by
  cases a with
  | leaf p t w => simp [CEdge.key] at h
  | derived sp' cat' r' =>
    simp only [CEdge.key, EdgeKey.derivedK.injEq] at h
    obtain ⟨h1, h2, h3⟩ := h
    rw [h1, h2, h3]

theorem insert_inv {lex : CCGLexicon} {toks : List String} {c : Chart}
    (hinv : ChartInv lex toks c) {sp : Nat × Nat} {cat : Categ} {r : RuleId}
    {ncpl : List CEdge}
    (hspan : sp.1 < sp.2 ∧ sp.2 ≤ toks.length)
    (hchild : childrenOk (c.insertEdge (.derived sp cat r) ncpl)
      (.derived sp cat r) ncpl) :
    ChartInv lex toks (c.insertEdge (.derived sp cat r) ncpl) := by
  refine ⟨?_, ?_, ?_⟩
  · intro e cpls hm
    rcases mem_insertEdge hm with hm' | hm' | hm'
    · exact hinv.spans _ _ hm'
    · obtain ⟨cpls₀, hm₀, _, _, _⟩ := hm'
      exact hinv.spans _ _ hm₀
    · obtain ⟨ha, _, _⟩ := hm'
      subst ha
      exact hspan
  · intro pos tok w cpls hm
    rcases mem_insertEdge hm with hm' | hm' | hm'
    · exact hinv.leaves _ _ _ _ hm'
    · obtain ⟨cpls₀, hm₀, _, _, _⟩ := hm'
      exact hinv.leaves _ _ _ _ hm₀
    · obtain ⟨ha, _, _⟩ := hm'
      cases ha
  · intro e cpls hm cpl hcpl
    rcases mem_insertEdge hm with hm' | hm' | hm'
    · exact childrenOk_mono (hinv.children _ _ hm' _ hcpl)
    · obtain ⟨cpls₀, hm₀, hkey, _, hcpls⟩ := hm'
      have he : e = .derived sp cat r := key_eq_derived hkey
      subst he
      rw [hcpls] at hcpl
      rcases List.mem_append.mp hcpl with hcpl' | hcpl'
      · exact childrenOk_mono (hinv.children _ _ hm₀ _ hcpl')
      · have : cpl = ncpl := by simpa using hcpl'
        subst this
        exact hchild
    · obtain ⟨ha, hcpls, _⟩ := hm'
      subst ha
      rw [hcpls] at hcpl
      have : cpl = ncpl := by simpa using hcpl
      subst this
      exact hchild

theorem step_inv {lex : CCGLexicon} {toks : List String} {c c' : Chart}
    (hinv : ChartInv lex toks c) (hs : Step lex toks c c') :
    ChartInv lex toks c' := by
  cases hs with
  | @binary r le re cl cr res hr hle hre hadj hcan hres =>
    have hsle := hinv.spans _ _ hle
    have hsre := hinv.spans _ _ hre
    refine insert_inv hinv ⟨by omega, hsre.2⟩ ?_
    have hgoal : ∀ (c' : Chart), c'.hasEdge le = true → c'.hasEdge re = true →
        childrenOk c' (.derived (le.startPos, re.endPos) res r) [le, re] := by
      intro c' h1 h2
      cases r <;> exact ⟨hr, rfl, hadj, rfl, h1, h2⟩
    exact hgoal _ (hasEdge_insertEdge (hasEdge_iff.mpr ⟨cl, hle⟩))
      (hasEdge_insertEdge (hasEdge_iff.mpr ⟨cr, hre⟩))
  | @ftr le re cl cr res hle hre hadj hres =>
    have hsle := hinv.spans _ _ hle
    refine insert_inv hinv ⟨hsle.1, hsle.2⟩ ?_
    exact ⟨rfl, hasEdge_insertEdge (hasEdge_iff.mpr ⟨cl, hle⟩)⟩
  | @btr le re cl cr res hle hre hadj hres =>
    have hsre := hinv.spans _ _ hre
    refine insert_inv hinv ⟨hsre.1, hsre.2⟩ ?_
    exact ⟨rfl, hasEdge_insertEdge (hasEdge_iff.mpr ⟨cr, hre⟩)⟩

theorem reachable_inv {lex : CCGLexicon} {toks : List String} {c : Chart}
    (h : Reachable lex toks c) : ChartInv lex toks c := by
  induction h with
  | init => exact initChart_inv lex toks
  | step _ hs ih => exact step_inv ih hs

/-! ## Word slices and derivation leaves -/

theorem slice_append (xs : List String) (s m e : Nat) (h1 : s ≤ m) (h2 : m ≤ e) :
    slice xs s m ++ slice xs m e = slice xs s e := by
  unfold slice
  have hm : e - s = (m - s) + (e - m) := by omega
  rw [hm, List.take_add, List.drop_drop]
  have hsm : s + (m - s) = m := by omega
  rw [hsm]

theorem slice_singleton {xs : List String} {pos : Nat} (h : pos < xs.length) :
    slice xs pos (pos + 1) = [xs.getD pos ""] := by
  unfold slice
  have h1 : pos + 1 - pos = 1 := by omega
  rw [h1, List.drop_eq_getElem_cons h, List.take_succ_cons, List.take_zero,
    List.getD_eq_getElem?_getD, List.getElem?_eq_getElem h]
  rfl

theorem slice_full (xs : List String) : slice xs 0 xs.length = xs := by
  simp [slice]

theorem treeWords_slice {lex : CCGLexicon} {toks : List String} {c : Chart}
    (hinv : ChartInv lex toks c) :
    ∀ {e : CEdge} {t : DTree}, TreeOf toks c e t →
      treeWords t = slice toks e.startPos e.endPos := by
  intro e t h
  induction h with
  | @leaf pos tok w cpls hm =>
    have hl := hinv.leaves _ _ _ _ hm
    simp only [treeWords, CEdge.startPos, CEdge.endPos]
    rw [slice_singleton hl.2.1]
  | @node sp cat r cpls cpl children sem hm hcpl hlen hch hsem ih =>
    have hco := hinv.children _ _ hm _ hcpl
    simp only [CEdge.startPos, CEdge.endPos]
    rcases cpl with _ | ⟨a, _ | ⟨b, _ | ⟨c₃, tl⟩⟩⟩
    · cases r <;> exact False.elim hco
    · -- single child: a type-raising alternative with the parent's span
      have hone : children.length = 1 := by simpa using hlen.symm
      obtain ⟨t₁, ht₁⟩ := List.length_eq_one.mp hone
      subst ht₁
      have hia := ih (a, t₁) (by simp [List.zip])
      have hsp : a.spanOf = sp := by
        cases r <;> first
          | exact hco.1
          | exact False.elim hco
      have ha1 : a.startPos = sp.1 := by rw [← hsp]; rfl
      have ha2 : a.endPos = sp.2 := by rw [← hsp]; rfl
      simp only [treeWords, List.append_nil]
      rw [hia, ha1, ha2]
    · -- two children: a binary alternative partitioning the parent's span
      have htwo : children.length = 2 := by simpa using hlen.symm
      obtain ⟨t₁, rest₁, hc1⟩ : ∃ x l, children = x :: l := by
        cases children with
        | nil => simp at htwo
        | cons x l => exact ⟨x, l, rfl⟩
      obtain ⟨t₂, rest₂, hc2⟩ : ∃ x l, rest₁ = x :: l := by
        cases rest₁ with
        | nil => rw [hc1] at htwo; simp at htwo
        | cons x l => exact ⟨x, l, rfl⟩
      have hnil : rest₂ = [] := by
        rw [hc1, hc2] at htwo
        simpa using htwo
      subst hnil
      subst hc2
      subst hc1
      have hco' : r ∈ binaryRules ∧ a.startPos = sp.1 ∧ a.endPos = b.startPos ∧
          b.endPos = sp.2 ∧ c.hasEdge a = true ∧ c.hasEdge b = true := by
        cases r <;> exact hco
      have hia := ih (a, t₁) (by simp [List.zip])
      have hib := ih (b, t₂) (by simp [List.zip])
      obtain ⟨cplsa, hma⟩ := hasEdge_iff.mp hco'.2.2.2.2.1
      obtain ⟨cplsb, hmb⟩ := hasEdge_iff.mp hco'.2.2.2.2.2
      have hsa := hinv.spans _ _ hma
      have hsb := hinv.spans _ _ hmb
      simp only [treeWords, List.append_nil]
      rw [hia, hib, hco'.2.1, hco'.2.2.1, hco'.2.2.2.1]
      exact slice_append toks sp.1 b.startPos sp.2
        (by rw [← hco'.2.1]; omega) (by rw [← hco'.2.2.2.1]; omega)
    · cases r <;> exact False.elim hco

theorem leafTokens_node_mem {tok : TokenL} {ws : List String} {cat : Categ}
    {sem : Option Term} {r : RuleId} :
    ∀ {children : List DTree}, tok ∈ leafTokens (.node ws cat sem r children) →
      ∃ t ∈ children, tok ∈ leafTokens t := by
  intro children
  induction children with
  | nil => intro h; simp [leafTokens] at h
  | cons t ts ih =>
    intro h
    simp only [leafTokens] at h
    rcases List.mem_append.mp h with h | h
    · exact ⟨t, List.mem_cons_self _ _, h⟩
    · obtain ⟨t', ht', htok⟩ := ih h
      exact ⟨t', List.mem_cons_of_mem _ ht', htok⟩

theorem exists_zip_left {α β : Type} :
    ∀ (as : List α) (bs : List β), as.length = bs.length →
      ∀ b ∈ bs, ∃ a, (a, b) ∈ as.zip bs := by
  intro as
  induction as with
  | nil =>
    intro bs hlen b hb
    cases bs with
    | nil => cases hb
    | cons x l => simp at hlen
  | cons a as ih =>
    intro bs hlen b hb
    cases bs with
    | nil => cases hb
    | cons b' bs' =>
      rcases List.mem_cons.mp hb with hb' | hb'
      · subst hb'
        exact ⟨a, by simp [List.zip_cons_cons]⟩
      · obtain ⟨a', ha⟩ := ih bs' (by simpa using hlen) b hb'
        exact ⟨a', by simp only [List.zip_cons_cons, List.mem_cons]; exact Or.inr ha⟩

theorem leafTokens_first {lex : CCGLexicon} {toks : List String} {c : Chart}
    (hinv : ChartInv lex toks c) :
    ∀ {e : CEdge} {t : DTree}, TreeOf toks c e t → ∀ tok ∈ leafTokens t,
      ∃ pos w cpls, (CEdge.leaf pos tok w, cpls) ∈ c ∧ w = toks.getD pos "" ∧
        (lex.categories w).find? (fun t' => t'.categ == tok.categ) = some tok := by
  intro e t h
  induction h with
  | @leaf pos tok' w cpls hm =>
    intro tok htok
    have : tok = tok' := by simpa [leafTokens] using htok
    subst this
    have hl := hinv.leaves _ _ _ _ hm
    exact ⟨pos, w, cpls, hm, hl.1, hl.2.2⟩
  | @node sp cat r cpls cpl children sem hm hcpl hlen hch hsem ih =>
    intro tok htok
    obtain ⟨t', ht', htok'⟩ := leafTokens_node_mem htok
    obtain ⟨a, hab⟩ := exists_zip_left cpl children hlen t' ht'
    exact ih (a, t') hab tok htok'

/-! ## Positions with no lexicon entry -/

theorem no_edge_at {lex : CCGLexicon} {toks : List String} {c : Chart} {i : Nat}
    (hr : Reachable lex toks c)
    (hcat : lex.categories (toks.getD i "") = []) :
    ∀ e cpls, (e, cpls) ∈ c → ¬ coversPos e i := by
  induction hr with
  | init =>
    intro e cpls hm hcov
    obtain ⟨pos, tok, w, he, _, hw, _, hfind⟩ := initChart_ok lex toks _ hm
    have he' : e = CEdge.leaf pos tok w := he
    subst he'
    obtain ⟨h1, h2⟩ := hcov
    simp only [CEdge.startPos, CEdge.endPos] at h1 h2
    have hpos : pos = i := by omega
    subst hpos
    have hw' : w = toks.getD pos "" := hw
    rw [hw', hcat] at hfind
    simp at hfind
  | @step c₀ c₁ hr₀ hs ih =>
    have hinv := reachable_inv hr₀
    intro e cpls hm hcov
    cases hs with
    | @binary r le re cl cr res hrj hle hre hadj hcan hres =>
      rcases mem_insertEdge hm with hm' | hm' | hm'
      · exact ih _ _ hm' hcov
      · obtain ⟨cpls₀, hm₀, _, _, _⟩ := hm'
        exact ih _ _ hm₀ hcov
      · obtain ⟨ha, _, _⟩ := hm'
        subst ha
        obtain ⟨h1, h2⟩ := hcov
        simp only [CEdge.startPos, CEdge.endPos] at h1 h2
        have hsle := hinv.spans _ _ hle
        by_cases hlt : i < le.endPos
        · exact ih _ _ hle ⟨h1, hlt⟩
        · exact ih _ _ hre ⟨by omega, h2⟩
    | @ftr le re cl cr res hle hre hadj hres =>
      rcases mem_insertEdge hm with hm' | hm' | hm'
      · exact ih _ _ hm' hcov
      · obtain ⟨cpls₀, hm₀, _, _, _⟩ := hm'
        exact ih _ _ hm₀ hcov
      · obtain ⟨ha, _, _⟩ := hm'
        subst ha
        obtain ⟨h1, h2⟩ := hcov
        simp only [CEdge.startPos, CEdge.endPos, CEdge.spanOf] at h1 h2
        exact ih _ _ hle ⟨h1, h2⟩
    | @btr le re cl cr res hle hre hadj hres =>
      rcases mem_insertEdge hm with hm' | hm' | hm'
      · exact ih _ _ hm' hcov
      · obtain ⟨cpls₀, hm₀, _, _, _⟩ := hm'
        exact ih _ _ hm₀ hcov
      · obtain ⟨ha, _, _⟩ := hm'
        subst ha
        obtain ⟨h1, h2⟩ := hcov
        simp only [CEdge.startPos, CEdge.endPos, CEdge.spanOf] at h1 h2
        exact ih _ _ hre ⟨h1, h2⟩

/-! ## Claims -/

/-- **C1, counterexample.**  The claim says a parse over a token with no
lexicon entry aborts with a fatal lookup failure before chart
construction.  It does not: `fromstring` stores the entries in a
`defaultdict(list)`, so `categories` returns `[]` for the unknown word
`b`, chart construction proceeds, and `chart_parse` returns the empty
list of derivations. -/
theorem unknown_word_lookup_returns_empty_and_parse_returns :
    CCGLexicon.categories lexB "b" = [] ∧
    chart_parse lexB ["b"] DefaultRuleSet = .ok [] :=
  ⟨rfl, rfl⟩

/-- **C1, amended.**  For every lexicon and token sequence containing a
word with no lexicon entry, the lookup yields the empty category list
(no failure), the position of that word acquires no edge in any
reachable chart, and the parse returns no derivations (an empty result,
not an abort). -/
theorem unknown_word_parse_no_derivations {lex : CCGLexicon} {toks : List String}
    {c : Chart} {i : Nat} {w : String}
    (hr : Reachable lex toks c) (hi : toks.get? i = some w)
    (hlook : lex.entries.lookup w = none) :
    lex.categories w = [] ∧ ∀ t, ¬ parsesHas c toks lex.start t := by
  have hcats : lex.categories w = [] := by
    simp [CCGLexicon.categories, hlook]
  have hilen : i < toks.length := by
    rcases List.get?_eq_some.mp hi with ⟨h, _⟩
    exact h
  have hw : toks.getD i "" = w := by
    rw [List.getD_eq_getElem?_getD, ← List.get?_eq_getElem?, hi]
    rfl
  refine ⟨hcats, ?_⟩
  rintro t ⟨e, cpls, hm, hs, he, _, _⟩
  have hcov : coversPos e i := ⟨by rw [hs]; omega, by rw [he]; omega⟩
  exact no_edge_at hr (by rw [hw]; exact hcats) _ _ hm hcov

/-- Witness for the amended C1 at the concrete lexicon `a => S` and input
`["b"]`. -/
theorem unknown_word_parse_no_derivations_witness :
    ["b"].get? 0 = some "b" ∧ lexB.entries.lookup "b" = none ∧
    (CCGLexicon.categories lexB "b" = [] ∧
      ∀ t, ¬ parsesHas (initChart lexB ["b"]) ["b"] lexB.start t) :=
  ⟨rfl, rfl,
    @unknown_word_parse_no_derivations lexB ["b"] (initChart lexB ["b"]) 0 "b"
      Reachable.init rfl rfl⟩

/-- **C2, counterexample.**  The claim says `compute_semantics` returns
`None` whenever either child lacks a term, and never raises.  The source
checks only `children[0]`: here the left child has a term and the right
does not, and the computation reaches the term composition with an
absent operand (fatal) instead of returning `None`. -/
theorem compute_semantics_missing_right_term_errors :
    semTree1.labelSem.isSome = true ∧ semTree2.labelSem = none ∧
    compute_semantics [semTree1, semTree2] RuleId.fApp =
      .error "operand without a semantic term" :=
  ⟨rfl, rfl, rfl⟩

/-- **C2, amended.**  Only an absent term on the first child (the left
child, checked before any backward swap) makes `compute_semantics`
return `None`; an absent term on the other child is not handled. -/
theorem compute_semantics_missing_left_term_none (c₀ c₁ : DTree) (r : RuleId)
    (h : c₀.labelSem = none) :
    compute_semantics [c₀, c₁] r = .ok none := by
  simp [compute_semantics, h]

/-- Witness for the amended C2: a left child with no term. -/
theorem compute_semantics_missing_left_term_none_witness :
    semTree2.labelSem = none ∧
    compute_semantics [semTree2, semTree1] RuleId.fApp = .ok none :=
  ⟨rfl, compute_semantics_missing_left_term_none semTree2 semTree1 RuleId.fApp rfl⟩

/-- **C3, code bug.**  The claim (like the spec, the class docstring and
the repository's own combinator tests) says that whenever
`Substitution.can_combine` holds, `combine` yields the `Functional`
category with result `function.res().res()`, argument `argument.arg()`
and direction `argument.dir()`.  The code cannot: substitution.py never
imports `FunctionalCategory`, so executing the yield raises `NameError`.
Evaluated at the operand pair the tests expect to combine, `(X\Y)/Z`
with `Y/Z`: `can_combine` holds, `combine` raises instead of yielding
the intended category `X/Z`. -/
theorem substitution_combine_raises_when_combinable :
    Substitution.can_combine subF subA = .ok true ∧
    Substitution.combine subF subA =
      .error "NameError: name FunctionalCategory is not defined" ∧
    Substitution.intendedCategory subF subA = .func catX catZ fdir :=
  ⟨rfl, rfl, rfl⟩

/-- **C4, counterexample.**  The claim says a type-raising chart rule
produces an edge only if the type-raising predicate holds.  It does not:
`ForwardTypeRaiseRule.apply` calls the wrapper's `combine` without
`can_combine`, and the wrapper's `combine` never consults the predicate.
At `a : NP` adjacent to `b : (S/NP)/NP` the predicate (and the full
directed `can_combine`) is false, yet the rule inserts the raised edge
`S\(S/NP)`, and a chart containing that edge is reachable during a real
fill. -/
theorem type_raise_rule_fires_despite_false_predicate :
    forwardTypeRaiseInsert [] tcLeft tcRight ≠ [] ∧
    forwardTConstraint tcLeft.categOf tcRight.categOf = false ∧
    ForwardT.can_combine tcLeft.categOf tcRight.categOf = false ∧
    Reachable lexTR ["a", "b"]
      ((initChart lexTR ["a", "b"]).insertEdge (.derived (0, 1) tcRaised .fT)
        [tcLeft]) := by
  refine ⟨by decide, by decide, by decide, ?_⟩
  have hle : (tcLeft, [([] : List CEdge)]) ∈ initChart lexTR ["a", "b"] := by decide
  have hre : (tcRight, [([] : List CEdge)]) ∈ initChart lexTR ["a", "b"] := by decide
  have hres : tcRaised ∈ ForwardT.combine tcLeft.categOf tcRight.categOf := by decide
  exact Reachable.step Reachable.init (Step.ftr hle hre rfl hres)

/-- **C4, amended.**  A type-raising chart rule produces edges from an
adjacent pair exactly as the undirected `TypeRaise.combine` dictates (on
the swapped pair for the backward rule): the directional predicate does
not restrict edge production, because the rule's `apply` skips
`can_combine` and the wrapper's `combine` delegates without the
predicate. -/
theorem type_raise_rule_fires_iff_undirected_combine (c : Chart) (le re : CEdge) :
    ForwardT.combine le.categOf re.categOf =
      TypeRaise.combine le.categOf re.categOf ∧
    BackwardT.combine le.categOf re.categOf =
      TypeRaise.combine re.categOf le.categOf ∧
    forwardTypeRaiseInsert c le re =
      (if le.endPos = re.startPos then
        (TypeRaise.combine le.categOf re.categOf).foldl
          (fun c res => c.insertEdge (.derived le.spanOf res .fT) [le]) c
      else c) ∧
    backwardTypeRaiseInsert c le re =
      (if le.endPos = re.startPos then
        (TypeRaise.combine re.categOf le.categOf).foldl
          (fun c res => c.insertEdge (.derived re.spanOf res .bT) [re]) c
      else c) := by
  refine ⟨rfl, rfl, ?_, ?_⟩
  · unfold forwardTypeRaiseInsert
    by_cases h : le.endPos = re.startPos
    · rw [if_neg (not_not_intro h), if_pos h]
      rfl
    · rw [if_pos h, if_neg h]
  · unfold backwardTypeRaiseInsert
    by_cases h : le.endPos = re.startPos
    · rw [if_neg (not_not_intro h), if_pos h]
      rfl
    · rw [if_pos h, if_neg h]

/-- **C5.**  `FunctionApplication.can_combine f a` holds iff `f` is
functional and unification of `f.arg` with `a` succeeds. -/
theorem application_can_combine_iff (f a : Categ) :
    FunctionApplication.can_combine f a = true ↔
      f.is_function = true ∧ (f.arg.can_unify a).isSome = true := by
  unfold FunctionApplication.can_combine
  cases hf : f.is_function
  · simp [hf]
  · cases hu : f.arg.can_unify a <;> simp [hf, hu]

/-- **C6.**  Every category yielded by `Composition.combine` is
`Functional` with result `substitute(function.res, subs)`, argument
`substitute(argument.arg, subs)` and direction `argument.dir`, for the
unifying substitution `subs` of `function.arg` against `argument.res`. -/
theorem composition_combine_structure (f a res : Categ)
    (h : res ∈ Composition.combine f a) :
    f.is_function = true ∧ a.is_function = true ∧
    ∃ subs, f.arg.can_unify a.res = some subs ∧
      res = .func (f.res.substitute subs) (a.arg.substitute subs) a.dir := by
  unfold Composition.combine at h
  cases hf : (f.is_function && a.is_function)
  · rw [hf] at h
    simp at h
  · rw [hf] at h
    obtain ⟨hf1, hf2⟩ : f.is_function = true ∧ a.is_function = true := by
      simpa using hf
    by_cases hb : (f.dir.can_compose && a.dir.can_compose) = true
    · cases hu : f.arg.can_unify a.res with
      | none =>
        rw [hu] at h
        simp [hb] at h
      | some subs =>
        rw [hu] at h
        simp only [hb, Bool.not_true, Bool.false_eq_true, if_false, if_true,
          List.mem_singleton] at h
        exact ⟨hf1, hf2, subs, rfl, by simpa using h⟩
    · simp [hb] at h

/-- Witness for C6 at `S/N` composed with `N/NP`. -/
theorem composition_combine_structure_witness :
    (Categ.func catS catNP fdir) ∈ Composition.combine compF compA ∧
    (compF.is_function = true ∧ compA.is_function = true ∧
      ∃ subs, compF.arg.can_unify compA.res = some subs ∧
        Categ.func catS catNP fdir =
          .func (compF.res.substitute subs) (compA.arg.substitute subs) compA.dir) :=
  ⟨by decide, composition_combine_structure compF compA _ (by decide)⟩

/-- **C7.**  A backward wrapper evaluates the undirected combinator on the
swapped pair while evaluating its predicate on the original order, and
its `combine` delegates on the swapped pair; forward wrappers delegate
both unswapped. -/
theorem directional_wrappers_delegate (u : UndirectedCombinator) (p : CPred)
    (l r : Categ) :
    BackwardCombinator.can_combine ⟨u, p⟩ l r = (u.can_combine r l && p l r) ∧
    BackwardCombinator.combine ⟨u, p⟩ l r = u.combine r l ∧
    ForwardCombinator.can_combine ⟨u, p⟩ l r = (u.can_combine l r && p l r) ∧
    ForwardCombinator.combine ⟨u, p⟩ l r = u.combine l r :=
  ⟨rfl, rfl, rfl, rfl⟩

/-- **C8.**  In every chart reachable during a parse, every
child-pointer list of every stored edge is well shaped: two stored
children partitioning the parent span for binary rules (the left child
ending where the right starts), one stored child with the parent's span
for the type-raising rules, and no children for leaves. -/
theorem chart_children_spans_partition {lex : CCGLexicon} {toks : List String}
    {c : Chart} (hr : Reachable lex toks c) :
    ∀ e cpls, (e, cpls) ∈ c → ∀ cpl ∈ cpls, childrenOk c e cpl :=
  (reachable_inv hr).children

/-- Witness for C8: the chart for `a b` under `a => NP, b => S\NP` after
one backward application holds a derived edge whose two children
partition `(0, 2)`. -/
theorem chart_children_spans_partition_witness :
    Reachable lexAB ["a", "b"] chartAB ∧
    (CEdge.derived (0, 2) catS .bApp, [[leafA2, leafB2]]) ∈ chartAB ∧
    childrenOk chartAB (CEdge.derived (0, 2) catS .bApp) [leafA2, leafB2] := by
  have hle : (leafA2, [([] : List CEdge)]) ∈ initChart lexAB ["a", "b"] := by decide
  have hre : (leafB2, [([] : List CEdge)]) ∈ initChart lexAB ["a", "b"] := by decide
  have hreach : Reachable lexAB ["a", "b"] chartAB :=
    Reachable.step Reachable.init
      (Step.binary (by decide) hle hre rfl (by decide) (by decide))
  have hm2 : (CEdge.derived (0, 2) catS .bApp, [[leafA2, leafB2]]) ∈ chartAB := by
    decide
  refine ⟨hreach, hm2, ?_⟩
  exact chart_children_spans_partition hreach _ _ hm2 [leafA2, leafB2] (by decide)

/-- **C9.**  Concatenating the leaves of any derivation returned for the
goal category over the full input reproduces the token sequence. -/
theorem derivation_leaves_round_trip {lex : CCGLexicon} {toks : List String}
    {c : Chart} {t : DTree} (hr : Reachable lex toks c)
    (hp : parsesHas c toks lex.start t) :
    treeWords t = toks := by
  obtain ⟨e, cpls, hm, hs, he, _, htree⟩ := hp
  have h := treeWords_slice (reachable_inv hr) htree
  rw [h, hs, he, slice_full]

/-- Witness for C9 at the one-word parse of `a` under `a => S`. -/
theorem derivation_leaves_round_trip_witness :
    parsesHas (initChart lexA ["a"]) ["a"] lexA.start
      (DTree.leaf ⟨"a", catS, none⟩ "a") ∧
    treeWords (DTree.leaf ⟨"a", catS, none⟩ "a") = ["a"] := by
  have hmem : (CEdge.leaf 0 ⟨"a", catS, none⟩ "a", [([] : List CEdge)]) ∈
      initChart lexA ["a"] := by decide
  have hp : parsesHas (initChart lexA ["a"]) ["a"] lexA.start
      (DTree.leaf ⟨"a", catS, none⟩ "a") :=
    ⟨CEdge.leaf 0 ⟨"a", catS, none⟩ "a", [[]], hmem, rfl, rfl, rfl,
      TreeOf.leaf hmem⟩
  exact ⟨hp, derivation_leaves_round_trip Reachable.init hp⟩

/-- **C10.**  Every token labelling a leaf of any derivation extracted
from a reachable chart is the *first* lexicon entry of its word that
carries its category: a later entry with an equal category but a
different semantic term collapses into the first entry's leaf edge
(leaf-edge identity is `(position, category, word)`) and never appears
in a derivation. -/
theorem duplicate_entry_first_token_only {lex : CCGLexicon} {toks : List String}
    {c : Chart} {e : CEdge} {t : DTree} {tok : TokenL}
    (hr : Reachable lex toks c) (ht : TreeOf toks c e t)
    (htok : tok ∈ leafTokens t) :
    ∃ pos w cpls, (CEdge.leaf pos tok w, cpls) ∈ c ∧ w = toks.getD pos "" ∧
      (lex.categories w).find? (fun t' => t'.categ == tok.categ) = some tok :=
  leafTokens_first (reachable_inv hr) ht tok htok

/-- Witness for C10: under `a => S {one} | S {two}` the initial chart
holds a single leaf edge carrying the first token, and the derivation
leaf token is that first token. -/
theorem duplicate_entry_first_token_only_witness :
    tokDupOne.categ = tokDupTwo.categ ∧
    tokDupOne.semantics ≠ tokDupTwo.semantics ∧
    initChart lexDup ["a"] = [(CEdge.leaf 0 tokDupOne "a", [[]])] ∧
    tokDupOne ∈ leafTokens (DTree.leaf tokDupOne (["a"].getD 0 "")) ∧
    (∃ pos w cpls,
      (CEdge.leaf pos tokDupOne w, cpls) ∈ initChart lexDup ["a"] ∧
      w = ["a"].getD pos "" ∧
      (lexDup.categories w).find? (fun t' => t'.categ == tokDupOne.categ) =
        some tokDupOne) := by
  have hmem : (CEdge.leaf 0 tokDupOne "a", [([] : List CEdge)]) ∈
      initChart lexDup ["a"] := by decide
  refine ⟨rfl, by decide, by decide, by simp [leafTokens], ?_⟩
  exact duplicate_entry_first_token_only Reachable.init (TreeOf.leaf hmem)
    (by simp [leafTokens])

end CCG
